import Mathlib

/-!
# sbcpanel: line parser, suspension oracle and scan driver

A shallow embedding of `main.go`. A Go string is a sequence of bytes and is modelled as a list of
natural numbers (`Str`); every pattern the program uses is ASCII, and `ascii` turns an ASCII
literal into its bytes. The functions of the Go `strings` package that the program calls
(`Index`, `Count`, `Split`, `Replace`, `Repeat`) are embedded for a non-empty pattern, which is
the only way the program calls them. The standard streams, the suspension cache and the sequence
of `LookupURLs` invocations are fields of an explicit state that is threaded through the loop.
-/

namespace Sbcpanel

/-- A Go string: its bytes. -/
abbrev Str := List Nat

/-- The bytes of an ASCII literal. -/
def ascii (s : String) : Str := s.data.map Char.toNat

/-- Go `strings.HasPrefix`. -/
def HasPrefix (s pre : Str) : Bool := pre.isPrefixOf s

/-- Go `strings.Index`: the index of the first instance of `substr` in `s`, `none` for -1. -/
def Index (s substr : Str) : Option Nat :=
  if HasPrefix s substr then some 0
  else match s with
    | [] => none
    | _ :: t => (Index t substr).map (· + 1)

/-- The loop of Go `strings.Count` for a non-empty `substr`: find the next instance, count it and
continue behind it. Each round consumes at least one byte, so `len(s)` rounds are enough
(`countLoop_fuel`). -/
def countLoop (substr : Str) : Nat → Str → Nat
  | 0, _ => 0
  | fuel + 1, s =>
    match Index s substr with
    | none => 0
    | some i => 1 + countLoop substr fuel (s.drop (i + substr.length))

/-- Go `strings.Count` for a non-empty `substr`: the number of non-overlapping instances. -/
def Count (s substr : Str) : Nat := countLoop substr s.length s

/-- The loop `for i < n` of Go `strings.genSplit`: cut at the next instance of `sep` until `n`
pieces were cut or no instance is left; the remainder is the last piece. -/
def splitLoop (sep : Str) (sepSave : Nat) : Nat → Str → List Str
  | 0, s => [s]
  | n + 1, s =>
    match Index s sep with
    | none => [s]
    | some m => s.take (m + sepSave) :: splitLoop sep sepSave n (s.drop (m + sep.length))

/-- Go `strings.genSplit` for a non-empty `sep`: `n = 0` gives nil, `n < 0` means all pieces
(`Count(s, sep) + 1`), and `n` is capped at `len(s) + 1`. -/
def genSplit (s sep : Str) (sepSave : Nat) (n : Int) : List Str :=
  if n = 0 then []
  else
    let n1 : Nat := if n < 0 then Count s sep + 1 else n.toNat
    let n2 : Nat := if n1 > s.length + 1 then s.length + 1 else n1
    splitLoop sep sepSave (n2 - 1) s

/-- Go `strings.Split(s, sep)`, which is `genSplit(s, sep, 0, -1)`. -/
def Split (s sep : Str) : List Str := genSplit s sep 0 (-1)

/-- The function `parseLine` (main.go, lines 140-146). -/
def parseLine (line : Str) : Str × Str :=
  let parts := Split line (ascii ": ")
  if parts.length ≠ 2 then ([], [])
  else (parts.getD 0 [], parts.getD 1 [])

/-- The number of positions of `s` at which `sub` occurs. -/
def occurrences (sub : Str) : Str → Nat
  | [] => if HasPrefix [] sub then 1 else 0
  | c :: t => (if HasPrefix (c :: t) sub then 1 else 0) + occurrences sub t

/-- The loop of Go `strings.Replace` for a non-empty `old`: `n` times, copy up to the next
instance of `old` and write `new` in its place; the remainder is copied at the end. Go calls the
loop with `n` at most `Count(s, old)`, so that `Index` always finds an instance. -/
def replaceLoop (old new : Str) : Nat → Str → Str
  | 0, s => s
  | n + 1, s =>
    match Index s old with
    | none => s
    | some j => s.take j ++ new ++ replaceLoop old new n (s.drop (j + old.length))

/-- Go `strings.Replace(s, old, new, n)` for a non-empty `old`; `n < 0` replaces every
instance. -/
def Replace (s old new : Str) (n : Int) : Str :=
  if old = new ∨ n = 0 then s
  else
    let m := Count s old
    if m = 0 then s
    else
      let n1 : Nat := if n < 0 ∨ (m : Int) < n then m else n.toNat
      replaceLoop old new n1 s

/-- The value of `safe_url` (main.go, lines 95-97). -/
def defang (url : Str) : Str :=
  let safe_url := Replace url (ascii ".") (ascii "[.]") (-1)
  let safe_url := Replace safe_url (ascii "http://") (ascii "hxxp://") (-1)
  let safe_url := Replace safe_url (ascii "https://") (ascii "hxxps://") (-1)
  safe_url

/-- Go `strings.Repeat`. -/
def Repeat (s : Str) (count : Nat) : Str := (List.replicate count s).flatten

/-- The text written by Go `fmt.Fprintln` for string operands: the operands separated by one
space, then a newline. -/
def Fprintln (operands : List Str) : Str := (ascii " ").intercalate operands ++ ascii "\n"

/-- The constant expression `(1 << iota) / 2` (main.go, line 39). -/
def codeIota (iota : Nat) : Nat := (1 <<< iota) / 2

def codeSafe : Nat := codeIota 0

def codeUnsafe : Nat := codeIota 1

def codeFailed : Nat := codeIota 2

def codeInvalid : Nat := codeIota 3

/-- Go `bufio.MaxScanTokenSize`: the size up to which the buffer of a `bufio.Scanner` grows. -/
def MaxScanTokenSize : Nat := 64 * 1024

/-- Go `bufio.dropCR`: drop one trailing carriage return. -/
def dropCR (data : Str) : Str :=
  if data.getLast? = some 13 then data.dropLast else data

/-- The tokens that the loop `for scanner.Scan()` receives from a `bufio.Scanner` with the split
function `ScanLines` over the unread bytes `data`: a token ends at the next newline and loses one
trailing carriage return, and a non-empty rest without newline is the last token. The buffer
holds `maxTokenSize` bytes, so that a newline at index `maxTokenSize` or later, or such a long
rest, is never seen: `Scan` then returns false with `ErrTooLong` and the loop ends. Each token
consumes at least one byte, so `len(data) + 1` rounds are enough (`rawLinesLoop_fuel`,
`scanTokens_eq`). -/
def scanTokens (maxTokenSize : Nat) : Nat → Str → List Str
  | 0, _ => []
  | fuel + 1, data =>
    match Index data (ascii "\n") with
    | some i =>
      if maxTokenSize ≤ i then []
      else dropCR (data.take i) :: scanTokens maxTokenSize fuel (data.drop (i + 1))
    | none =>
      if data = [] then []
      else if maxTokenSize ≤ data.length then []
      else [dropCR data]

/-- A resource that `os.Open` has opened: its bytes, and the number of bytes after which reading
fails (`none` when every read succeeds up to the end of the file; `some 0` for a directory). -/
structure File where
  content : Str
  readFailsAt : Option Nat

/-- The bytes that the reads deliver before the end of the file or the read failure. A scanner
treats both ends alike: it splits what it holds and stops. -/
def File.delivered (f : File) : Str :=
  match f.readFailsAt with
  | none => f.content
  | some k => f.content.take k

/-- The lines that `for scanner.Scan()` with `scanner.Text()` visits for a `bufio.NewScanner`
over the opened file; `scanner.Err()` is not consulted by the caller. -/
def File.scannedLines (f : File) : List Str :=
  scanTokens MaxScanTokenSize (f.delivered.length + 1) f.delivered

/-- What the program sees of the filesystem: `os.Open` of a path fails (`none`) or gives an
opened file. -/
abbrev FileSystem := Str → Option File

/-- A Go `map[string]bool`, as an association list without repeated keys. -/
abbrev Cache := List (Str × Bool)

/-- The map read `val, ok := m[key]`. -/
def Cache.get (m : Cache) (key : Str) : Option Bool := m.lookup key

/-- The map write `m[key] = val`. -/
def Cache.set (m : Cache) (key : Str) (val : Bool) : Cache :=
  (key, val) :: m.filter (fun e => e.1 ≠ key)

/-- The function `IsSuspendedOncPanel` (main.go, lines 113-138); the global
`cpanelSuspendedAccountsCache` is passed in and returned. -/
def IsSuspendedOncPanel (fs : FileSystem) (cache : Cache) (account : Str) : Bool × Cache :=
  match cache.get account with
  | some val => (val, cache)
  | none =>
    let accountFile := ascii "/var/cpanel/users/" ++ account
    match fs accountFile with
    | none => (false, cache.set account false)
    | some f =>
      let result := f.scannedLines.foldl
        (fun result line => if line = ascii "SUSPENDED=1" then true else result) false
      (result, cache.set account result)

/-- A `safebrowsing.URLThreat`, of which the program prints the threat type with `%s`. -/
structure URLThreat where
  ThreatType : Str
  deriving DecidableEq

/-- The two results of `sb.LookupURLs`: the threat lists, one per url, and the error
(`none` for nil). -/
structure LookupResult where
  threats : List (List URLThreat)
  err : Option Str
  deriving DecidableEq

/-- One invocation of `sb.LookupURLs`: the number of the input line it was made for, the batch
passed and the result returned. -/
structure Call where
  line : Nat
  urls : List Str
  result : LookupResult
  deriving DecidableEq

/-- The collaborators of a run, which may answer differently from one input line to the next:
the result of `sb.LookupURLs` for the call made at line `i`, and the filesystem as it is while
line `i` is processed. -/
structure World where
  LookupURLs : Nat → List Str → LookupResult
  fs : Nat → FileSystem

/-- The state of a run: the variable `code`, the global cache, what was written to standard
output and to standard error, and the invocations of `sb.LookupURLs` so far. -/
structure State where
  code : Nat
  cpanelSuspendedAccountsCache : Cache
  stdout : Str
  stderr : Str
  calls : List Call

/-- The classification of a lookup result (main.go, lines 87-102). Indexing `threats[0]` of an
empty result is a run-time panic, `none`. -/
def report (st : State) (url account : Str) (res : LookupResult) : Option State :=
  match res.err with
  | some err =>
    some { st with
      stdout := st.stdout ++ Fprintln [ascii "Unknown URL:", url]
      stderr := st.stderr ++ Fprintln [ascii "Lookup error:", err]
      code := st.code ||| codeFailed }
  | none =>
    match res.threats with
    | [] => none
    | [] :: _ => some st
    | (threat :: _) :: _ =>
      let out := st.stdout ++ Fprintln [Repeat (ascii "-") 10]
      let out := out ++ (ascii "Threat found: " ++ threat.ThreatType ++ ascii "\n")
      let out := out ++ (ascii "Account: " ++ account ++ ascii "\n")
      let safe_url := defang url
      let out := out ++ (ascii "Domain: " ++ safe_url ++ ascii "\n")
      let out := out ++ Fprintln [Repeat (ascii "-") 10]
      let out := out ++ Fprintln [ascii ""]
      some { st with stdout := out, code := st.code ||| codeUnsafe }

/-- The body of the scan loop for input line number `i` (main.go, lines 75-102). The operator
`&&` does not call the oracle when the flag is off. -/
def loopBody (ignoreSuspended : Bool) (w : World) (i : Nat) (st : State) (line : Str) :
    Option State :=
  let (url, account) := parseLine line
  if account = ascii "" ∨ account = ascii "*" then some st
  else
    let (suspended, cache) :=
      if ignoreSuspended then IsSuspendedOncPanel (w.fs i) st.cpanelSuspendedAccountsCache account
      else (false, st.cpanelSuspendedAccountsCache)
    if suspended then some { st with cpanelSuspendedAccountsCache := cache }
    else
      let res := w.LookupURLs i [url]
      report { st with cpanelSuspendedAccountsCache := cache,
                       calls := st.calls ++ [⟨i, [url], res⟩] } url account res

/-- The loop `for scanner.Scan()` over the lines the scanner yields, from line number `i` on. -/
def scanLoop (ignoreSuspended : Bool) (w : World) : Nat → List Str → State → Option State
  | _, [], st => some st
  | i, line :: rest, st =>
    match loopBody ignoreSuspended w i st line with
    | none => none
    | some st1 => scanLoop ignoreSuspended w (i + 1) rest st1

/-- The opened input file as the scanner delivers it: the lines it yields, and `scanner.Err()`
after the last of them. -/
structure DomainsFile where
  lines : List Str
  scanErr : Option Str

/-- The inputs of `main`: the flags -apikey and -ignoresuspended, the error of
`safebrowsing.NewSafeBrowser`, and the result of `os.Open` of the file named by -f. -/
structure Args where
  apiKeyFlag : Str
  ignoreSuspended : Bool
  newSafeBrowserErr : Option Str
  openDomains : Except Str DomainsFile

def initState : State :=
  { code := codeSafe, cpanelSuspendedAccountsCache := [], stdout := [], stderr := [], calls := [] }

/-- The call `os.Exit(code)`: the run ends in state `st` with exit status `code`. -/
def exitWith (st : State) (code : Nat) : Option State := some { st with code := code }

/-- The function `main` (main.go, lines 45-111): the final state, whose `code` is the exit
status, or `none` when the run panics. -/
def main (args : Args) (w : World) : Option State :=
  if args.apiKeyFlag = ascii "" then
    exitWith { initState with stderr := Fprintln [ascii "No -apikey specified"] } codeInvalid
  else
    match args.newSafeBrowserErr with
    | some err =>
      exitWith { initState with
        stderr := Fprintln [ascii "Unable to initialize Safe Browsing client: ", err] } codeInvalid
    | none =>
      match args.openDomains with
      | .error err =>
        exitWith { initState with
          stderr := Fprintln [ascii "Unable to open file /etc/localdomains: ", err] } codeInvalid
      | .ok f =>
        match scanLoop args.ignoreSuspended w 0 f.lines initState with
        | none => none
        | some st =>
          match f.scanErr with
          | some err =>
            exitWith { st with stderr := st.stderr ++ Fprintln [ascii "Unable to read input:", err] }
              (st.code ||| codeInvalid)
          | none => exitWith st st.code

/-! ## Notions used to state the properties -/

/-- The contract of the lookup capability: a successful lookup returns one threat list per
requested url. -/
def LookupWellFormed (w : World) : Prop :=
  ∀ i urls, (w.LookupURLs i urls).err = none →
    (w.LookupURLs i urls).threats.length = urls.length

/-- The lookup of this call returned an error. -/
def Call.failed (c : Call) : Bool := c.result.err.isSome

/-- The lookup of this call succeeded with at least one threat for its first url. -/
def Call.hasThreat (c : Call) : Bool :=
  c.result.err.isNone && (c.result.threats.head?.any (fun ts => !ts.isEmpty))

/-- The lookup succeeded with zero threats for its first url. -/
def LookupResult.zeroThreats (r : LookupResult) : Prop :=
  r.err = none ∧ r.threats.head? = some []

/-- The line is skipped: its account is "" (which includes every malformed line) or "*", or the
flag is on and the oracle reports the account suspended. -/
def Skipped (ignoreSuspended : Bool) (fs : FileSystem) (cache : Cache) (line : Str) : Prop :=
  (parseLine line).2 = ascii "" ∨ (parseLine line).2 = ascii "*" ∨
    (ignoreSuspended = true ∧ (IsSuspendedOncPanel fs cache (parseLine line).2).1 = true)

/-- The invocation of `sb.LookupURLs` that the driver makes for input line number `i`. -/
def lineCall (w : World) (i : Nat) (line : Str) : Call :=
  ⟨i, [(parseLine line).1], w.LookupURLs i [(parseLine line).1]⟩

/-- The exit code bit that one lookup contributes. -/
def callBit (c : Call) : Nat :=
  if c.failed then codeFailed else if c.hasThreat then codeUnsafe else codeSafe

/-- The exit code bits that a sequence of lookups contributes. -/
def scanBits (calls : List Call) : Nat :=
  (if calls.any Call.hasThreat then 1 else 0) ||| (if calls.any Call.failed then 2 else 0)

/-- Every line of the input was looked up on its url, and the lookup succeeded with zero
threats. -/
def AllLinesLookedUpSafe (w : World) (lines : List Str) (fin : State) : Prop :=
  ∀ l1 line l2, lines = l1 ++ line :: l2 →
    lineCall w l1.length line ∈ fin.calls ∧
      (w.LookupURLs l1.length [(parseLine line).1]).zeroThreats

/-- The byte relation of the two protocol replacements: a byte stays, or a "t" becomes "x". -/
def Rx (a b : Nat) : Prop := b = a ∨ (a = 116 ∧ b = 120)

/-- Every "." of `s` has "[" right before it and "]" right after it. -/
def DotsBracketed (s : Str) : Prop :=
  ∀ a b : Str, s = a ++ 46 :: b → (∃ a2, a = a2 ++ [91]) ∧ (∃ b2, b = 93 :: b2)

/-! ## Concrete runs -/

/-- A lookup service that finds every url safe; no account file exists. -/
def quietWorld : World :=
  { LookupURLs := fun _ urls => ⟨urls.map (fun _ => []), none⟩
    fs := fun _ _ => none }

/-- A lookup service that reports one MALWARE threat for every url. -/
def threatWorld : World :=
  { LookupURLs := fun _ urls => ⟨urls.map (fun _ => [⟨ascii "MALWARE"⟩]), none⟩
    fs := fun _ _ => none }

/-- A lookup service whose call for the first input line fails and that finds every later url
safe. -/
def failingWorld : World :=
  { LookupURLs := fun i urls =>
      if i = 0 then ⟨urls.map (fun _ => []), some (ascii "deadline exceeded")⟩
      else ⟨urls.map (fun _ => []), none⟩
    fs := fun _ _ => none }

/-- A filesystem in which the account bob is suspended. -/
def bobSuspended : FileSystem := fun path =>
  if path = ascii "/var/cpanel/users/bob" then some ⟨ascii "USER=bob\nSUSPENDED=1\n", none⟩
  else none

def suspendedWorld : World :=
  { LookupURLs := fun _ urls => ⟨urls.map (fun _ => []), none⟩
    fs := fun _ => bobSuspended }

/-- A command line with an API key and the default -ignoresuspended, whose input file opens and
delivers `lines` and then `scanErr`. -/
def argsFor (lines : List Str) (scanErr : Option Str) : Args :=
  { apiKeyFlag := ascii "KEY"
    ignoreSuspended := true
    newSafeBrowserErr := none
    openDomains := .ok ⟨lines, scanErr⟩ }

/-! ## Go string functions -/

theorem hasPrefix_iff (s pre : Str) : HasPrefix s pre = true ↔ pre <+: s := by
  unfold HasPrefix; exact List.isPrefixOf_iff_prefix

theorem Index_zero {s sub : Str} (h : HasPrefix s sub = true) : Index s sub = some 0 := by
  unfold Index; simp [h]

theorem Index_nil {sub : Str} (h : sub ≠ []) : Index [] sub = none := by
  unfold Index
  have : HasPrefix [] sub = false := by
    cases sub with
    | nil => exact absurd rfl h
    | cons a t => rfl
  simp [this]

theorem Index_cons {c : Nat} {t sub : Str} (h : HasPrefix (c :: t) sub = false) :
    Index (c :: t) sub = (Index t sub).map (· + 1) := by
  rw [Index]; simp [h]

theorem Index_some_append {sub : Str} : ∀ {s : Str} {m : Nat}, Index s sub = some m →
    s = s.take m ++ (sub ++ s.drop (m + sub.length)) := by
  intro s
  induction s with
  | nil =>
    intro m h
    by_cases hp : HasPrefix [] sub = true
    · rw [Index_zero hp] at h
      obtain ⟨t, ht⟩ := (hasPrefix_iff _ _).1 hp
      simp at ht
      simp [ht.1]
    · unfold Index at h; simp [hp] at h
  | cons c t ih =>
    intro m h
    by_cases hp : HasPrefix (c :: t) sub = true
    · rw [Index_zero hp] at h
      obtain ⟨r, hr⟩ := (hasPrefix_iff _ _).1 hp
      cases h
      simp
      rw [← hr]; simp
    · simp at hp
      rw [Index_cons hp] at h
      cases hi : Index t sub with
      | none => rw [hi] at h; simp at h
      | some j =>
        rw [hi] at h; simp at h
        subst h
        have := ih hi
        simp [Nat.add_right_comm j 1]
        exact this

theorem Index_le {sub : Str} : ∀ {s : Str} {m : Nat}, Index s sub = some m →
    ∀ a b : Str, s = a ++ (sub ++ b) → m ≤ a.length := by
  intro s
  induction s with
  | nil =>
    intro m h a b hab
    have h1 : a = [] := by
      cases a with
      | nil => rfl
      | cons x a' => simp at hab
    subst h1
    simp at hab
    have hp : HasPrefix [] sub = true := (hasPrefix_iff _ _).2 ⟨[], by simp [hab.1]⟩
    rw [Index_zero hp] at h
    cases h; exact Nat.le_refl _
  | cons c t ih =>
    intro m h a b hab
    by_cases hp : HasPrefix (c :: t) sub = true
    · rw [Index_zero hp] at h
      cases h; exact Nat.zero_le _
    · simp at hp
      rw [Index_cons hp] at h
      cases hi : Index t sub with
      | none => rw [hi] at h; simp at h
      | some j =>
        rw [hi] at h; simp at h
        subst h
        cases a with
        | nil =>
          simp at hab
          have : HasPrefix (c :: t) sub = true := (hasPrefix_iff _ _).2 ⟨b, hab.symm⟩
          rw [hp] at this; cases this
        | cons x a' =>
          simp at hab
          have := ih hi a' b hab.2
          simp; exact this

theorem Index_bound {sub s : Str} {m : Nat} (h : Index s sub = some m) :
    m + sub.length ≤ s.length := by
  induction s generalizing m with
  | nil =>
    by_cases hp : HasPrefix [] sub = true
    · rw [Index_zero hp] at h
      obtain ⟨t, ht⟩ := (hasPrefix_iff _ _).1 hp
      cases h
      simp at ht
      simp [ht.1]
    · unfold Index at h; simp [hp] at h
  | cons c t ih =>
    by_cases hp : HasPrefix (c :: t) sub = true
    · rw [Index_zero hp] at h
      cases h
      have := ((hasPrefix_iff _ _).1 hp).length_le
      omega
    · simp at hp
      rw [Index_cons hp] at h
      cases hi : Index t sub with
      | none => rw [hi] at h; simp at h
      | some j =>
        rw [hi] at h; simp at h
        subst h
        have := ih hi
        simp; omega

theorem occurrences_pos {sub : Str} : ∀ (a b : Str), 1 ≤ occurrences sub (a ++ (sub ++ b)) := by
  intro a
  induction a with
  | nil =>
    intro b
    have hp : HasPrefix (sub ++ b) sub = true := (hasPrefix_iff _ _).2 ⟨b, rfl⟩
    cases hs : sub ++ b with
    | nil => rw [hs] at hp; simp [occurrences, hp]
    | cons x r => rw [hs] at hp; simp [occurrences, hp]
  | cons x a ih =>
    intro b
    have := ih b
    show 1 ≤ occurrences sub (x :: (a ++ (sub ++ b)))
    simp only [occurrences]
    omega

theorem Index_none_iff {sub : Str} : ∀ (s : Str), Index s sub = none ↔ occurrences sub s = 0 := by
  intro s
  induction s with
  | nil =>
    by_cases hp : HasPrefix [] sub = true
    · simp [Index_zero hp, occurrences, hp]
    · unfold Index; simp [occurrences, hp]
  | cons c t ih =>
    by_cases hp : HasPrefix (c :: t) sub = true
    · simp [Index_zero hp, occurrences, hp]
    · simp at hp
      rw [Index_cons hp]
      simp [occurrences, hp, ← ih]

theorem occurrences_eq_zero_iff (sub s : Str) : occurrences sub s = 0 ↔ ¬ sub <:+: s := by
  constructor
  · rintro h ⟨a, b, hab⟩
    have := @occurrences_pos sub a b
    rw [← List.append_assoc, hab] at this
    omega
  · intro h
    induction s with
    | nil =>
      have hp : HasPrefix [] sub = false := by
        cases hq : HasPrefix [] sub with
        | false => rfl
        | true => exact absurd ((hasPrefix_iff _ _).1 hq).isInfix h
      simp [occurrences, hp]
    | cons c t ih =>
      have hp : HasPrefix (c :: t) sub = false := by
        cases hq : HasPrefix (c :: t) sub with
        | false => rfl
        | true => exact absurd ((hasPrefix_iff _ _).1 hq).isInfix h
      have ht : ¬ sub <:+: t := fun hi => h (hi.trans (List.suffix_cons c t).isInfix)
      simp [occurrences, hp, ih ht]

theorem Index_take_free {sub s : Str} {m : Nat} (hne : sub ≠ []) (h : Index s sub = some m) :
    ¬ sub <:+: s.take m := by
  rintro ⟨a, b, hab⟩
  have h1 : s = a ++ (sub ++ (b ++ s.drop m)) := by
    conv_lhs => rw [← List.take_append_drop m s, ← hab]
    simp
  have h2 := Index_le h a _ h1
  have h3 := congrArg List.length hab
  have h4 := Index_bound h
  have h5 : (s.take m).length ≤ m := by simp
  have h6 : 0 < sub.length := List.length_pos.2 hne
  simp only [List.length_append] at h3
  omega

theorem countLoop_fuel {sub : Str} (hne : sub ≠ []) : ∀ (f g : Nat) (s : Str),
    s.length ≤ f → s.length ≤ g → countLoop sub f s = countLoop sub g s := by
  have h0 : ∀ g : Nat, countLoop sub g [] = 0 := by
    intro g
    cases g with
    | zero => rfl
    | succ g => simp [countLoop, Index_nil hne]
  intro f
  induction f with
  | zero =>
    intro g s hf _
    have : s = [] := List.length_eq_zero.1 (Nat.le_zero.1 hf)
    subst this
    rw [h0, h0]
  | succ f ih =>
    intro g s hf hg
    cases g with
    | zero =>
      have : s = [] := List.length_eq_zero.1 (Nat.le_zero.1 hg)
      subst this
      rw [h0, h0]
    | succ g =>
      simp only [countLoop]
      cases hi : Index s sub with
      | none => rfl
      | some i =>
        have hb := Index_bound hi
        have hl : 0 < sub.length := List.length_pos.2 hne
        have hd : (s.drop (i + sub.length)).length ≤ s.length - 1 := by
          simp; omega
        simp only
        rw [ih g _ (by omega) (by omega)]

theorem Count_none {sub s : Str} (h : Index s sub = none) : Count s sub = 0 := by
  unfold Count
  cases s.length with
  | zero => rfl
  | succ n => simp [countLoop, h]

theorem Count_some {sub s : Str} {i : Nat} (hne : sub ≠ []) (h : Index s sub = some i) :
    Count s sub = 1 + Count (s.drop (i + sub.length)) sub := by
  have hb := Index_bound h
  have hl : 0 < sub.length := List.length_pos.2 hne
  unfold Count
  cases hs : s.length with
  | zero => omega
  | succ n =>
    simp only [countLoop, h]
    rw [countLoop_fuel hne n _ _ (by simp; omega) (Nat.le_refl _)]

theorem Count_le {sub : Str} (hne : sub ≠ []) : ∀ (n : Nat) (s : Str), s.length ≤ n →
    Count s sub ≤ s.length := by
  intro n
  induction n with
  | zero =>
    intro s hs
    have : s = [] := List.length_eq_zero.1 (Nat.le_zero.1 hs)
    subst this
    rw [Count_none (Index_nil hne)]; exact Nat.zero_le _
  | succ n ih =>
    intro s hs
    cases hi : Index s sub with
    | none => rw [Count_none hi]; exact Nat.zero_le _
    | some i =>
      have hb := Index_bound hi
      have hl : 0 < sub.length := List.length_pos.2 hne
      rw [Count_some hne hi]
      have hd : (s.drop (i + sub.length)).length = s.length - (i + sub.length) := by simp
      have := ih (s.drop (i + sub.length)) (by omega)
      omega

theorem Split_eq_loop {sub : Str} (hne : sub ≠ []) (s : Str) :
    Split s sub = splitLoop sub 0 (Count s sub) s := by
  have := Count_le hne s.length s (Nat.le_refl _)
  unfold Split genSplit
  simp
  rw [if_neg (by omega), Nat.add_sub_cancel]

theorem Split_none {sub s : Str} (hne : sub ≠ []) (h : Index s sub = none) :
    Split s sub = [s] := by
  rw [Split_eq_loop hne, Count_none h]; rfl

theorem Split_some {sub s : Str} {m : Nat} (hne : sub ≠ []) (h : Index s sub = some m) :
    Split s sub = s.take m :: Split (s.drop (m + sub.length)) sub := by
  rw [Split_eq_loop hne, Split_eq_loop hne, Count_some hne h, Nat.add_comm 1]
  simp [splitLoop, h]

/-! ## The line parser -/

theorem delim_eq : ascii ": " = [58, 32] := rfl

theorem delim_ne : ascii ": " ≠ [] := by decide

theorem hasPrefix_delim (s : Str) :
    HasPrefix s (ascii ": ") = true ↔ ∃ t, s = 58 :: 32 :: t := by
  rw [hasPrefix_iff, delim_eq]
  constructor
  · rintro ⟨t, rfl⟩; exact ⟨t, rfl⟩
  · rintro ⟨t, rfl⟩; exact ⟨t, rfl⟩

theorem occurrences_Index_delim : ∀ {s : Str} {m : Nat}, Index s (ascii ": ") = some m →
    occurrences (ascii ": ") s = 1 + occurrences (ascii ": ") (s.drop (m + 2)) := by
  intro s
  induction s with
  | nil => intro m h; rw [Index_nil delim_ne] at h; cases h
  | cons c t ih =>
    intro m h
    by_cases hp : HasPrefix (c :: t) (ascii ": ") = true
    · rw [Index_zero hp] at h
      cases h
      obtain ⟨r, hr⟩ := (hasPrefix_delim _).1 hp
      simp at hr
      obtain ⟨rfl, rfl⟩ := hr
      have h2 : HasPrefix (32 :: r) (ascii ": ") = false := by
        cases hq : HasPrefix (32 :: r) (ascii ": ") with
        | false => rfl
        | true =>
          obtain ⟨r2, hr2⟩ := (hasPrefix_delim _).1 hq
          simp at hr2
      simp [occurrences, hp, h2]
    · simp at hp
      rw [Index_cons hp] at h
      cases hi : Index t (ascii ": ") with
      | none => rw [hi] at h; simp at h
      | some j =>
        rw [hi] at h; simp at h
        subst h
        simp [occurrences, hp, ih hi]

theorem Split_ne_nil {sub : Str} (hne : sub ≠ []) (s : Str) : Split s sub ≠ [] := by
  cases h : Index s sub with
  | none => rw [Split_none hne h]; simp
  | some m => rw [Split_some hne h]; simp

theorem parseLine_eq (line : Str) :
    parseLine line =
      match Index line (ascii ": ") with
      | none => ([], [])
      | some m =>
        match Index (line.drop (m + 2)) (ascii ": ") with
        | none => (line.take m, line.drop (m + 2))
        | some _ => ([], []) := by
  unfold parseLine
  cases h1 : Index line (ascii ": ") with
  | none => simp [Split_none delim_ne h1]
  | some m =>
    have hl : (ascii ": ").length = 2 := rfl
    have e1 := Split_some delim_ne h1
    rw [hl] at e1
    cases h2 : Index (line.drop (m + 2)) (ascii ": ") with
    | none =>
      rw [Split_none delim_ne h2] at e1
      simp [e1, h2]
    | some k =>
      rw [Split_some delim_ne h2] at e1
      simp [e1, h2, Split_ne_nil delim_ne]

/-- C1: a line that does not contain exactly one occurrence of the delimiter ": " is rejected:
`parseLine` returns the pair of empty strings. -/
theorem parseLine_not_one_delim (line : Str) (h : occurrences (ascii ": ") line ≠ 1) :
    parseLine line = (ascii "", ascii "") := by
  rw [parseLine_eq]
  cases h1 : Index line (ascii ": ") with
  | none => rfl
  | some m =>
    have e := occurrences_Index_delim h1
    cases h2 : Index (line.drop (m + 2)) (ascii ": ") with
    | none =>
      have := (Index_none_iff _).1 h2
      omega
    | some k => simp only [h2]; rfl

theorem parseLine_not_one_delim_witness :
    occurrences (ascii ": ") (ascii "badformat") ≠ 1 ∧
      parseLine (ascii "badformat") = (ascii "", ascii "") :=
  ⟨by decide, parseLine_not_one_delim (ascii "badformat") (by decide)⟩

theorem parseLine_one_delim {line : Str} (h : occurrences (ascii ": ") line = 1) :
    ∃ m, Index line (ascii ": ") = some m ∧ Index (line.drop (m + 2)) (ascii ": ") = none ∧
      parseLine line = (line.take m, line.drop (m + 2)) := by
  cases h1 : Index line (ascii ": ") with
  | none =>
    have := (Index_none_iff _).1 h1
    omega
  | some m =>
    have e := occurrences_Index_delim h1
    have h2 : Index (line.drop (m + 2)) (ascii ": ") = none := (Index_none_iff _).2 (by omega)
    refine ⟨m, rfl, h2, ?_⟩
    rw [parseLine_eq, h1]
    simp only [h2]

theorem parseLine_of_append {url account : Str}
    (h : occurrences (ascii ": ") (url ++ ascii ": " ++ account) = 1) :
    parseLine (url ++ ascii ": " ++ account) = (url, account) := by
  obtain ⟨m, h1, h2, h3⟩ := parseLine_one_delim h
  have e1 := Index_some_append h1
  have hm := Index_le h1 url account (by simp)
  have hfree : occurrences (ascii ": ") (List.drop (m + 2) (url ++ ascii ": " ++ account)) = 0 :=
    (Index_none_iff _).1 h2
  have hl : (ascii ": ").length = 2 := rfl
  rw [hl] at e1
  rw [h3]
  generalize hu : List.take m (url ++ ascii ": " ++ account) = u at e1 ⊢
  generalize ha : List.drop (m + 2) (url ++ ascii ": " ++ account) = a at e1 hfree ⊢
  have hul : u.length = m := by
    rw [← hu]; simp; omega
  rw [List.append_assoc] at e1
  rcases List.append_eq_append_iff.1 e1 with ⟨w, hw1, hw2⟩ | ⟨w, hw1, hw2⟩
  · have : w = [] := by
      have := congrArg List.length hw1
      simp at this
      exact List.length_eq_zero.1 (by omega)
    subst this
    simp at hw1 hw2
    rw [hw1, hw2]
  · cases w with
    | nil =>
      simp at hw1 hw2
      rw [hw1, hw2]
    | cons x w =>
      exfalso
      rw [delim_eq] at hw2
      simp at hw2
      obtain ⟨_, hw3⟩ := hw2
      cases w with
      | nil => simp at hw3
      | cons y w =>
        simp at hw3
        have := @occurrences_pos (ascii ": ") w account
        rw [delim_eq] at this hfree
        rw [hw3.2] at hfree
        simp only [List.cons_append, List.nil_append] at this
        omega

/-- C2: for a line with exactly one occurrence of ": ", `parseLine` returns the text before the
delimiter and the text after it, untrimmed, so that url ++ ": " ++ account is the line and neither
part contains ": "; conversely `parseLine (url ++ ": " ++ account) = (url, account)` whenever the
concatenation has exactly one occurrence of the delimiter. -/
theorem parseLine_one_delim_roundtrip :
    (∀ line : Str, occurrences (ascii ": ") line = 1 →
      (parseLine line).1 ++ ascii ": " ++ (parseLine line).2 = line ∧
      ¬ ascii ": " <:+: (parseLine line).1 ∧ ¬ ascii ": " <:+: (parseLine line).2) ∧
    (∀ url account : Str, occurrences (ascii ": ") (url ++ ascii ": " ++ account) = 1 →
      parseLine (url ++ ascii ": " ++ account) = (url, account)) := by
  refine ⟨?_, fun url account h => parseLine_of_append h⟩
  intro line h
  obtain ⟨m, h1, h2, h3⟩ := parseLine_one_delim h
  rw [h3]
  refine ⟨?_, Index_take_free delim_ne h1, ?_⟩
  · have e1 := Index_some_append h1
    have hl : (ascii ": ").length = 2 := rfl
    rw [hl] at e1
    simp only [List.append_assoc]
    exact e1.symm
  · exact (occurrences_eq_zero_iff _ _).1 ((Index_none_iff _).1 h2)

theorem parseLine_one_delim_roundtrip_witness :
    (parseLine (ascii " a.b : bob ")).1 ++ ascii ": " ++ (parseLine (ascii " a.b : bob ")).2
        = ascii " a.b : bob " ∧
      parseLine (ascii "http://evil.example" ++ ascii ": " ++ ascii "bob")
        = (ascii "http://evil.example", ascii "bob") :=
  ⟨(parseLine_one_delim_roundtrip.1 (ascii " a.b : bob ") (by decide)).1,
   parseLine_one_delim_roundtrip.2 (ascii "http://evil.example") (ascii "bob") (by decide)⟩

/-! ## Defanging -/

theorem Replace_eq_loop {old new : Str} (hon : old ≠ new) (s : Str) :
    Replace s old new (-1) = replaceLoop old new (Count s old) s := by
  unfold Replace
  simp [hon]
  intro h
  rw [h]; rfl

theorem Replace_none {old new s : Str} (hon : old ≠ new) (h : Index s old = none) :
    Replace s old new (-1) = s := by
  rw [Replace_eq_loop hon, Count_none h]; rfl

theorem Replace_some {old new s : Str} {j : Nat} (hne : old ≠ []) (hon : old ≠ new)
    (h : Index s old = some j) :
    Replace s old new (-1) =
      s.take j ++ new ++ Replace (s.drop (j + old.length)) old new (-1) := by
  rw [Replace_eq_loop hon, Replace_eq_loop hon, Count_some hne h, Nat.add_comm 1]
  simp [replaceLoop, h]

theorem Replace_nil {old new : Str} (hne : old ≠ []) (hon : old ≠ new) :
    Replace [] old new (-1) = [] :=
  Replace_none hon (Index_nil hne)

theorem Replace_hit {old new : Str} (hne : old ≠ []) (hon : old ≠ new) (r : Str) :
    Replace (old ++ r) old new (-1) = new ++ Replace r old new (-1) := by
  have hp : HasPrefix (old ++ r) old = true := (hasPrefix_iff _ _).2 ⟨r, rfl⟩
  rw [Replace_some hne hon (Index_zero hp)]
  simp

theorem Replace_miss {old new : Str} (hne : old ≠ []) (hon : old ≠ new) {c : Nat} {t : Str}
    (hp : HasPrefix (c :: t) old = false) :
    Replace (c :: t) old new (-1) = c :: Replace t old new (-1) := by
  cases hi : Index t old with
  | none =>
    have h1 : Index (c :: t) old = none := by rw [Index_cons hp, hi]; rfl
    rw [Replace_none hon h1, Replace_none hon hi]
  | some j =>
    have h1 : Index (c :: t) old = some (j + 1) := by rw [Index_cons hp, hi]; rfl
    rw [Replace_some hne hon h1, Replace_some hne hon hi]
    simp [Nat.add_right_comm j 1]

theorem scan_induction {old : Str} (hne : old ≠ []) (P : Str → Prop) (hnil : P [])
    (hhit : ∀ r, P r → P (old ++ r))
    (hmiss : ∀ c t, HasPrefix (c :: t) old = false → P t → P (c :: t)) : ∀ s, P s := by
  have key : ∀ (n : Nat) (s : Str), s.length ≤ n → P s := by
    intro n
    induction n with
    | zero =>
      intro s hs
      have : s = [] := List.length_eq_zero.1 (Nat.le_zero.1 hs)
      subst this
      exact hnil
    | succ n ih =>
      intro s hs
      cases hq : HasPrefix s old with
      | true =>
        obtain ⟨r, hr⟩ := (hasPrefix_iff _ _).1 hq
        subst hr
        have hl : 0 < old.length := List.length_pos.2 hne
        simp at hs
        exact hhit r (ih r (by omega))
      | false =>
        cases s with
        | nil => exact hnil
        | cons c t =>
          simp at hs
          exact hmiss c t hq (ih t (by omega))
  intro s
  exact key s.length s (Nat.le_refl _)

theorem Rx_refl (l : Str) : List.Forall₂ Rx l l :=
  List.forall₂_same.2 (fun _ _ => Or.inl rfl)

theorem Replace_rel {old new : Str} (hne : old ≠ []) (hon : old ≠ new)
    (hr : List.Forall₂ Rx old new) : ∀ s, List.Forall₂ Rx s (Replace s old new (-1)) := by
  apply scan_induction hne
  · rw [Replace_nil hne hon]; exact List.Forall₂.nil
  · intro r ih
    rw [Replace_hit hne hon]
    exact List.rel_append hr ih
  · intro c t hp ih
    rw [Replace_miss hne hon hp]
    exact List.Forall₂.cons (Or.inl rfl) ih

theorem eq_of_Rx {o p : Str} (h : List.Forall₂ Rx o p) (hx : 120 ∉ p) : o = p := by
  induction h with
  | nil => rfl
  | cons hab _ ih =>
    simp at hx
    rcases hab with h1 | ⟨_, h2⟩
    · rw [h1, ih hx.2]
    · exact absurd h2.symm hx.1

theorem infix_at_of_Rx {s p a b : Str} (h : List.Forall₂ Rx s (a ++ (p ++ b))) (hx : 120 ∉ p) :
    ∃ a0 b0, s = a0 ++ (p ++ b0) ∧ a0.length = a.length := by
  have h0 := List.forall₂_take_append _ _ _ h
  have h1 := List.forall₂_drop_append _ _ _ h
  have h2 := List.forall₂_take_append _ _ _ h1
  have h3 := eq_of_Rx h2 hx
  refine ⟨s.take a.length, (s.drop a.length).drop p.length, ?_, h0.length_eq⟩
  have e : p ++ List.drop p.length (List.drop a.length s) = List.drop a.length s := by
    have := List.take_append_drop p.length (List.drop a.length s)
    rw [h3] at this; exact this
  rw [e, List.take_append_drop]

theorem infix_of_Rx {s r p : Str} (h : List.Forall₂ Rx s r) (hx : 120 ∉ p) (hp : p <:+: r) :
    p <:+: s := by
  obtain ⟨a, b, hab⟩ := hp
  subst hab
  rw [List.append_assoc] at h
  obtain ⟨a0, b0, h1, _⟩ := infix_at_of_Rx h hx
  exact ⟨a0, b0, by rw [h1, List.append_assoc]⟩

theorem Replace_hit_at {h0 : Nat} {tl new : Str} (hh : h0 ∉ tl)
    (hlen : new.length = (h0 :: tl).length) (hon : h0 :: tl ≠ new) :
    ∀ s a b, s = a ++ (h0 :: tl ++ b) →
      ∃ a2 b2, Replace s (h0 :: tl) new (-1) = a2 ++ (new ++ b2) ∧ a2.length = a.length := by
  have hne : h0 :: tl ≠ [] := by simp
  apply scan_induction hne
  · intro a b h
    cases a <;> simp at h
  · intro r ih a b h
    rw [Replace_hit hne hon]
    rcases List.append_eq_append_iff.1 h with ⟨w, hw1, hw2⟩ | ⟨w, hw1, hw2⟩
    · obtain ⟨a2, b2, h1, h2⟩ := ih w b hw2
      refine ⟨new ++ a2, b2, ?_, ?_⟩
      · rw [h1]; simp
      · rw [hw1]; simp [hlen, h2]; omega
    · cases a with
      | nil => exact ⟨[], Replace r (h0 :: tl) new (-1), rfl, rfl⟩
      | cons x a =>
        simp at hw1
        obtain ⟨_, hw1⟩ := hw1
        cases w with
        | nil =>
          simp at hw2 hw1
          obtain ⟨a2, b2, h1, h2⟩ := ih [] b (by simp [hw2])
          have h3 : a2 = [] := List.length_eq_zero.1 (by simpa using h2)
          subst h3
          refine ⟨new, b2, ?_, ?_⟩
          · rw [h1]; simp
          · simp [hlen, hw1]
        | cons y w =>
          exfalso
          simp at hw2
          apply hh
          rw [hw1, hw2.1]
          simp
  · intro c t hp ih a b h
    rw [Replace_miss hne hon hp]
    cases a with
    | nil =>
      have : HasPrefix (c :: t) (h0 :: tl) = true := (hasPrefix_iff _ _).2 ⟨b, h.symm⟩
      rw [hp] at this; cases this
    | cons x a =>
      simp at h
      obtain ⟨a2, b2, h1, h2⟩ := ih a b (by simpa using h.2)
      refine ⟨c :: a2, b2, ?_, ?_⟩
      · rw [h1]; simp
      · simp [h2]

theorem Replace_free {h0 : Nat} {tl new : Str} (hh : h0 ∉ tl)
    (hx : 120 ∉ h0 :: tl) (hr : List.Forall₂ Rx (h0 :: tl) new) (hon : h0 :: tl ≠ new) (s : Str) :
    ¬ (h0 :: tl) <:+: Replace s (h0 :: tl) new (-1) := by
  rintro ⟨a, b, hab⟩
  have hne : h0 :: tl ≠ [] := by simp
  have hrel := Replace_rel hne hon hr s
  rw [← hab, List.append_assoc] at hrel
  obtain ⟨a0, b0, hs, hl0⟩ := infix_at_of_Rx hrel hx
  have hlen : new.length = (h0 :: tl).length := hr.length_eq.symm
  obtain ⟨a2, b2, h1, h2⟩ := Replace_hit_at hh hlen hon s a0 b0 hs
  rw [h1, List.append_assoc] at hab
  have e1 := (List.append_inj hab (by omega)).2
  exact hon (List.append_inj e1 hlen.symm).1

theorem dots_cons {c : Nat} {r : Str} (hc : c ≠ 46) (h : DotsBracketed r) :
    DotsBracketed (c :: r) := by
  intro a b hab
  cases a with
  | nil => simp at hab; exact absurd hab.1 hc
  | cons x a =>
    simp at hab
    obtain ⟨⟨a2, ha2⟩, hb⟩ := h a b hab.2
    exact ⟨⟨x :: a2, by rw [ha2]; rfl⟩, hb⟩

theorem dots_block {r : Str} (h : DotsBracketed r) : DotsBracketed (91 :: 46 :: 93 :: r) := by
  intro a b hab
  match a, hab with
  | [], hab => simp at hab
  | [x], hab =>
    simp at hab
    exact ⟨⟨[], by simp [hab.1]⟩, ⟨r, hab.2.symm⟩⟩
  | [x, y], hab => simp at hab
  | x :: y :: z :: a, hab =>
    simp at hab
    obtain ⟨⟨a2, ha2⟩, hb⟩ := h a b hab.2.2.2
    exact ⟨⟨x :: y :: z :: a2, by rw [ha2]; rfl⟩, hb⟩

theorem dots_Replace (s : Str) : DotsBracketed (Replace s (ascii ".") (ascii "[.]") (-1)) := by
  have hne : ascii "." ≠ [] := by decide
  have hon : ascii "." ≠ ascii "[.]" := by decide
  revert s
  apply scan_induction hne
  · rw [Replace_nil hne hon]
    intro a b hab
    cases a <;> simp at hab
  · intro r ih
    rw [Replace_hit hne hon]
    exact dots_block ih
  · intro c t hp ih
    rw [Replace_miss hne hon hp]
    refine dots_cons ?_ ih
    rintro rfl
    have : HasPrefix (46 :: t) (ascii ".") = true := (hasPrefix_iff _ _).2 ⟨t, rfl⟩
    rw [hp] at this; cases this

theorem Rx_snoc {c : Nat} (hc : c ≠ 116) : ∀ {a r : Str}, List.Forall₂ Rx (a ++ [c]) r →
    ∃ r2, r = r2 ++ [c] := by
  intro a
  induction a with
  | nil =>
    intro r h
    obtain ⟨y, v, hy, hv, rfl⟩ := List.forall₂_cons_left_iff.1 h
    have := List.forall₂_nil_left_iff.1 hv
    subst this
    rcases hy with h1 | ⟨h1, _⟩
    · exact ⟨[], by simp [h1]⟩
    · exact absurd h1 hc
  | cons x a ih =>
    intro r h
    obtain ⟨y, v, _, hv, rfl⟩ := List.forall₂_cons_left_iff.1 h
    obtain ⟨r2, hr2⟩ := ih hv
    exact ⟨y :: r2, by rw [hr2]; rfl⟩

theorem dots_of_Rx {s r : Str} (h : List.Forall₂ Rx s r) (hs : DotsBracketed s) :
    DotsBracketed r := by
  intro a b hab
  subst hab
  have h0 := List.forall₂_take_append _ _ _ h
  have h1 := List.forall₂_drop_append _ _ _ h
  obtain ⟨x, u, hx, hu, hd⟩ := List.forall₂_cons_right_iff.1 h1
  have hx46 : x = 46 := by
    rcases hx with h2 | ⟨_, h2⟩
    · exact h2.symm
    · cases h2
  subst hx46
  have hsplit : s = s.take a.length ++ 46 :: u := by
    rw [← hd, List.take_append_drop]
  obtain ⟨⟨a2, ha2⟩, ⟨b2, hb2⟩⟩ := hs _ _ hsplit
  rw [ha2] at h0
  subst hb2
  obtain ⟨y, v, hy, _, rfl⟩ := List.forall₂_cons_left_iff.1 hu
  refine ⟨Rx_snoc (by decide) h0, ⟨v, ?_⟩⟩
  rcases hy with h2 | ⟨h2, _⟩
  · rw [h2]
  · cases h2

/-- C10: the defanged url contains neither "http://" nor "https://" as a substring, and every "."
in it stands immediately after a "[" and immediately before a "]". -/
theorem defang_no_protocol_dots_bracketed (url : Str) :
    ¬ ascii "http://" <:+: defang url ∧ ¬ ascii "https://" <:+: defang url ∧
    ∀ a b : Str, defang url = a ++ ascii "." ++ b →
      (∃ a2, a = a2 ++ ascii "[") ∧ (∃ b2, b = ascii "]" ++ b2) := by
  have hr1 : List.Forall₂ Rx (ascii "http://") (ascii "hxxp://") := by
    simp [ascii, Rx]
  have hr2 : List.Forall₂ Rx (ascii "https://") (ascii "hxxps://") := by
    simp [ascii, Rx]
  have hne1 : ascii "http://" ≠ [] := by decide
  have hne2 : ascii "https://" ≠ [] := by decide
  have hon1 : ascii "http://" ≠ ascii "hxxp://" := by decide
  have hon2 : ascii "https://" ≠ ascii "hxxps://" := by decide
  have e1 : ascii "http://" = 104 :: ascii "ttp://" := rfl
  have e2 : ascii "https://" = 104 :: ascii "ttps://" := rfl
  have hd1 := dots_Replace url
  unfold defang
  simp only
  generalize Replace url (ascii ".") (ascii "[.]") (-1) = r1 at hd1 ⊢
  refine ⟨?_, ?_, ?_⟩
  · intro hin
    have h2 := infix_of_Rx (Replace_rel hne2 hon2 hr2 _) (by decide) hin
    rw [e1] at h2 hr1 hon1
    exact Replace_free (by decide) (by decide) hr1 hon1 r1 h2
  · rw [e2] at hr2 hon2 ⊢
    exact Replace_free (by decide) (by decide) hr2 hon2 _
  · intro a b hab
    have hd3 := dots_of_Rx (Replace_rel hne2 hon2 hr2 _)
      (dots_of_Rx (Replace_rel hne1 hon1 hr1 r1) hd1)
    exact hd3 a b (by rw [hab]; simp [ascii])

theorem defang_no_protocol_dots_bracketed_witness :
    ¬ ascii "http://" <:+: defang (ascii "http://a.b/?u=https://c.d") ∧
    ¬ ascii "https://" <:+: defang (ascii "http://a.b/?u=https://c.d") :=
  ⟨(defang_no_protocol_dots_bracketed (ascii "http://a.b/?u=https://c.d")).1,
   (defang_no_protocol_dots_bracketed (ascii "http://a.b/?u=https://c.d")).2.1⟩

/-! ## The suspension oracle -/

theorem Cache_get_set (m : Cache) (key : Str) (val : Bool) :
    (m.set key val).get key = some val := by
  simp [Cache.get, Cache.set, List.lookup]

/-- C4: a second call of `IsSuspendedOncPanel` for the same account returns the boolean of the
first call and the cache of the first call, whatever the filesystem then holds. -/
theorem IsSuspendedOncPanel_second_call (account : Str) (cache : Cache) (fs1 fs2 : FileSystem) :
    (IsSuspendedOncPanel fs2 (IsSuspendedOncPanel fs1 cache account).2 account).1
        = (IsSuspendedOncPanel fs1 cache account).1 ∧
    (IsSuspendedOncPanel fs2 (IsSuspendedOncPanel fs1 cache account).2 account).2
        = (IsSuspendedOncPanel fs1 cache account).2 ∧
    ∀ fs3 : FileSystem,
      IsSuspendedOncPanel fs3 (IsSuspendedOncPanel fs1 cache account).2 account
        = IsSuspendedOncPanel fs2 (IsSuspendedOncPanel fs1 cache account).2 account := by
  have key : ∀ fs : FileSystem,
      IsSuspendedOncPanel fs (IsSuspendedOncPanel fs1 cache account).2 account
        = ((IsSuspendedOncPanel fs1 cache account).1, (IsSuspendedOncPanel fs1 cache account).2) := by
    intro fs
    cases hc : cache.get account with
    | some val => simp [IsSuspendedOncPanel, hc]
    | none =>
      cases hf : fs1 (ascii "/var/cpanel/users/" ++ account) with
      | none => simp [IsSuspendedOncPanel, hc, hf, Cache_get_set]
      | some f => simp [IsSuspendedOncPanel, hc, hf, Cache_get_set]
  refine ⟨?_, ?_, ?_⟩
  · rw [key fs2]
  · rw [key fs2]
  · intro fs3; rw [key fs3, key fs2]

theorem loopBody_skip {flag : Bool} {w : World} {i : Nat} {st : State} {line : Str}
    (h : Skipped flag (w.fs i) st.cpanelSuspendedAccountsCache line) :
    ∃ st1, loopBody flag w i st line = some st1 ∧ st1.calls = st.calls ∧
      st1.code = st.code ∧ st1.stdout = st.stdout := by
  unfold loopBody
  unfold Skipped at h
  rcases hp : parseLine line with ⟨url, account⟩
  rw [hp] at h
  simp only at h ⊢
  by_cases h1 : account = ascii "" ∨ account = ascii "*"
  · rw [if_pos h1]; exact ⟨st, rfl, rfl, rfl, rfl⟩
  · rw [if_neg h1]
    rcases h with h | h | ⟨hf, hs⟩
    · exact absurd (Or.inl h) h1
    · exact absurd (Or.inr h) h1
    · subst hf
      simp only [if_true]
      rw [hs]
      exact ⟨_, rfl, rfl, rfl, rfl⟩

theorem loopBody_lookup {flag : Bool} {w : World} {i : Nat} {st : State} {line : Str}
    (h : ¬ Skipped flag (w.fs i) st.cpanelSuspendedAccountsCache line) :
    ∃ cache, loopBody flag w i st line =
      report { st with cpanelSuspendedAccountsCache := cache,
                       calls := st.calls ++ [lineCall w i line] }
        (parseLine line).1 (parseLine line).2 (w.LookupURLs i [(parseLine line).1]) := by
  unfold loopBody lineCall
  unfold Skipped at h
  rcases hp : parseLine line with ⟨url, account⟩
  rw [hp] at h
  simp only at h ⊢
  have h1 : ¬ (account = ascii "" ∨ account = ascii "*") :=
    fun hc => h (hc.elim Or.inl (fun x => Or.inr (Or.inl x)))
  rw [if_neg h1]
  cases flag with
  | false => exact ⟨_, rfl⟩
  | true =>
    have h2 : (IsSuspendedOncPanel (w.fs i) st.cpanelSuspendedAccountsCache account).1 = false := by
      cases hb : (IsSuspendedOncPanel (w.fs i) st.cpanelSuspendedAccountsCache account).1 with
      | false => rfl
      | true => exact absurd (Or.inr (Or.inr ⟨rfl, hb⟩)) h
    simp only [if_true]
    rw [h2]
    exact ⟨_, rfl⟩

theorem codes_eq : codeSafe = 0 ∧ codeUnsafe = 1 ∧ codeFailed = 2 ∧ codeInvalid = 4 := by decide

theorem report_wf {w : World} (hwf : LookupWellFormed w) (i : Nat) (st : State)
    (url account : Str) :
    ∃ st1, report st url account (w.LookupURLs i [url]) = some st1 ∧ st1.calls = st.calls ∧
      st1.code = st.code ||| callBit ⟨i, [url], w.LookupURLs i [url]⟩ := by
  have hw := hwf i [url]
  unfold report callBit Call.failed Call.hasThreat
  cases he : (w.LookupURLs i [url]).err with
  | some err => exact ⟨_, rfl, rfl, rfl⟩
  | none =>
    have hl := hw he
    cases ht : (w.LookupURLs i [url]).threats with
    | nil => rw [ht] at hl; cases hl
    | cons t0 others =>
      cases t0 with
      | nil => exact ⟨_, rfl, rfl, by simp [codes_eq.1]⟩
      | cons threat rest => exact ⟨_, rfl, rfl, by simp⟩

theorem loopBody_step {flag : Bool} {w : World} (hwf : LookupWellFormed w) {i : Nat} {st : State}
    {line : Str} (h : ¬ Skipped flag (w.fs i) st.cpanelSuspendedAccountsCache line) :
    ∃ st1, loopBody flag w i st line = some st1 ∧
      st1.calls = st.calls ++ [lineCall w i line] ∧
      st1.code = st.code ||| callBit (lineCall w i line) := by
  obtain ⟨cache, hc⟩ := loopBody_lookup h
  rw [hc]
  exact report_wf hwf i _ _ _

/-- C3: the loop body invokes the lookup capability exactly when the parsed account is neither
"" nor "*" and it is not the case that the ignoresuspended flag is on and the oracle reports the
account suspended; the invocation is made with the one-element batch holding the parsed url.
With the flag off the oracle is not consulted and every such line is looked up. -/
theorem loopBody_lookup_iff (flag : Bool) (w : World) (hwf : LookupWellFormed w) (i : Nat)
    (st : State) (line : Str) :
    ∃ st1, loopBody flag w i st line = some st1 ∧
      (¬ Skipped flag (w.fs i) st.cpanelSuspendedAccountsCache line →
        st1.calls = st.calls ++
          [⟨i, [(parseLine line).1], w.LookupURLs i [(parseLine line).1]⟩]) ∧
      (Skipped flag (w.fs i) st.cpanelSuspendedAccountsCache line → st1.calls = st.calls) ∧
      (flag = false → (parseLine line).2 ≠ ascii "" → (parseLine line).2 ≠ ascii "*" →
        st1.calls = st.calls ++
          [⟨i, [(parseLine line).1], w.LookupURLs i [(parseLine line).1]⟩]) := by
  by_cases h : Skipped flag (w.fs i) st.cpanelSuspendedAccountsCache line
  · obtain ⟨st1, h1, h2, _, _⟩ := loopBody_skip h
    refine ⟨st1, h1, fun hn => absurd h hn, fun _ => h2, ?_⟩
    intro hf ha hb
    rcases h with h | h | ⟨h, _⟩
    · exact absurd h ha
    · exact absurd h hb
    · rw [hf] at h; cases h
  · obtain ⟨st1, h1, h2, _⟩ := loopBody_step hwf h
    exact ⟨st1, h1, fun _ => h2, fun hs => absurd hs h, fun _ _ _ => h2⟩

/-- C8: for a looked-up line whose lookup succeeds with a non-empty threat list, the loop body
appends to standard output the block made of a line of 10 dashes, "Threat found: " and the type
of the first threat, "Account: " and the account, "Domain: " and the defanged url, a line of 10
dashes and an empty line, and ORs codeUnsafe = 1 into the exit status; the defanged url replaces
every "." by "[.]", then every "http://" by "hxxp://", then every "https://" by "hxxps://". -/
theorem loopBody_threat_report (flag : Bool) (w : World) (i : Nat) (st : State) (line : Str)
    (threat : URLThreat) (rest : List URLThreat) (others : List (List URLThreat))
    (hns : ¬ Skipped flag (w.fs i) st.cpanelSuspendedAccountsCache line)
    (herr : (w.LookupURLs i [(parseLine line).1]).err = none)
    (hth : (w.LookupURLs i [(parseLine line).1]).threats = (threat :: rest) :: others) :
    ∃ st1, loopBody flag w i st line = some st1 ∧
      st1.stdout = st.stdout ++ ascii "----------\n"
        ++ (ascii "Threat found: " ++ threat.ThreatType ++ ascii "\n")
        ++ (ascii "Account: " ++ (parseLine line).2 ++ ascii "\n")
        ++ (ascii "Domain: " ++ defang (parseLine line).1 ++ ascii "\n")
        ++ ascii "----------\n" ++ ascii "\n" ∧
      st1.code = st.code ||| 1 ∧
      defang (parseLine line).1 =
        Replace (Replace (Replace (parseLine line).1 (ascii ".") (ascii "[.]") (-1))
          (ascii "http://") (ascii "hxxp://") (-1)) (ascii "https://") (ascii "hxxps://") (-1) := by
  obtain ⟨cache, hc⟩ := loopBody_lookup hns
  rw [hc]
  unfold report
  rw [herr, hth]
  exact ⟨_, rfl, rfl, rfl, rfl⟩

/-- C9: a skipped line (malformed, empty account, account "*", or suspended account with the
filter on) and a looked-up line whose lookup succeeds with zero threats write nothing to standard
output and leave the accumulated exit status as it was. -/
theorem loopBody_silent (flag : Bool) (w : World) (i : Nat) (st : State) (line : Str)
    (h : Skipped flag (w.fs i) st.cpanelSuspendedAccountsCache line ∨
      ((w.LookupURLs i [(parseLine line).1]).err = none ∧
        ∃ others, (w.LookupURLs i [(parseLine line).1]).threats = [] :: others)) :
    ∃ st1, loopBody flag w i st line = some st1 ∧ st1.stdout = st.stdout ∧
      st1.code = st.code := by
  by_cases hs : Skipped flag (w.fs i) st.cpanelSuspendedAccountsCache line
  · obtain ⟨st1, h1, _, h3, h4⟩ := loopBody_skip hs
    exact ⟨st1, h1, h4, h3⟩
  · rcases h with h | ⟨herr, others, hth⟩
    · exact absurd h hs
    · obtain ⟨cache, hc⟩ := loopBody_lookup hs
      rw [hc]
      unfold report
      rw [herr, hth]
      exact ⟨_, rfl, rfl, rfl⟩

theorem scanBits_append (calls : List Call) (c : Call) :
    scanBits (calls ++ [c]) = scanBits calls ||| callBit c := by
  unfold scanBits callBit
  simp only [List.any_append, List.any_cons, List.any_nil, Bool.or_false]
  have hx : c.failed = true → c.hasThreat = false := by
    unfold Call.failed Call.hasThreat
    cases c.result.err <;> simp
  generalize calls.any Call.hasThreat = a
  generalize calls.any Call.failed = b
  revert hx
  generalize c.failed = p
  generalize c.hasThreat = q
  cases a <;> cases b <;> cases p <;> cases q <;> decide

theorem report_calls {st st1 : State} {url account : Str} {res : LookupResult}
    (h : report st url account res = some st1) : st1.calls = st.calls := by
  unfold report at h
  cases he : res.err with
  | some err => rw [he] at h; simp at h; rw [← h]
  | none =>
    rw [he] at h
    cases ht : res.threats with
    | nil => rw [ht] at h; simp at h
    | cons t0 others =>
      rw [ht] at h
      cases t0 with
      | nil => simp at h; rw [← h]
      | cons threat rest => simp at h; rw [← h]

theorem loopBody_calls_mono {flag : Bool} {w : World} {i : Nat} {st st1 : State} {line : Str}
    (h : loopBody flag w i st line = some st1) : ∀ c ∈ st.calls, c ∈ st1.calls := by
  intro c hc
  by_cases hs : Skipped flag (w.fs i) st.cpanelSuspendedAccountsCache line
  · obtain ⟨st2, h1, h2, _, _⟩ := loopBody_skip hs
    rw [h1] at h
    cases h
    rw [h2]; exact hc
  · obtain ⟨cache, h1⟩ := loopBody_lookup hs
    rw [h1] at h
    rw [report_calls h]
    exact List.mem_append_left _ hc

theorem scanLoop_calls_mono {flag : Bool} {w : World} : ∀ (lines : List Str) (i : Nat)
    (st st1 : State), scanLoop flag w i lines st = some st1 → ∀ c ∈ st.calls, c ∈ st1.calls := by
  intro lines
  induction lines with
  | nil =>
    intro i st st1 h c hc
    simp [scanLoop] at h
    rw [← h]; exact hc
  | cons line rest ih =>
    intro i st st1 h c hc
    simp only [scanLoop] at h
    cases hb : loopBody flag w i st line with
    | none => rw [hb] at h; cases h
    | some st2 =>
      rw [hb] at h
      exact ih (i + 1) st2 st1 h c (loopBody_calls_mono hb c hc)

theorem scanLoop_append {flag : Bool} {w : World} : ∀ (l1 l2 : List Str) (i : Nat) (st : State),
    scanLoop flag w i (l1 ++ l2) st =
      (scanLoop flag w i l1 st).bind (scanLoop flag w (i + l1.length) l2) := by
  intro l1
  induction l1 with
  | nil => intro l2 i st; simp [scanLoop]
  | cons line rest ih =>
    intro l2 i st
    simp only [List.cons_append, scanLoop]
    cases hb : loopBody flag w i st line with
    | none => rfl
    | some st2 =>
      show scanLoop flag w (i + 1) (rest ++ l2) st2 = _
      rw [ih l2 (i + 1) st2]
      simp [Nat.add_assoc, Nat.add_comm 1]

theorem scanLoop_code {flag : Bool} {w : World} (hwf : LookupWellFormed w) :
    ∀ (lines : List Str) (i : Nat) (st : State), ∃ st1,
      scanLoop flag w i lines st = some st1 ∧
      (st.code = scanBits st.calls → st1.code = scanBits st1.calls) := by
  intro lines
  induction lines with
  | nil => intro i st; exact ⟨st, rfl, id⟩
  | cons line rest ih =>
    intro i st
    simp only [scanLoop]
    by_cases hs : Skipped flag (w.fs i) st.cpanelSuspendedAccountsCache line
    · obtain ⟨st2, h1, h2, h3, _⟩ := loopBody_skip hs
      obtain ⟨st3, h4, h5⟩ := ih (i + 1) st2
      rw [h1]
      exact ⟨st3, h4, fun h => h5 (by rw [h2, h3]; exact h)⟩
    · obtain ⟨st2, h1, h2, h3⟩ := loopBody_step hwf hs
      obtain ⟨st3, h4, h5⟩ := ih (i + 1) st2
      rw [h1]
      exact ⟨st3, h4, fun h => h5 (by rw [h2, h3, scanBits_append, h])⟩

theorem scanLoop_reach {flag : Bool} {w : World} (hwf : LookupWellFormed w) {lines : List Str}
    {i : Nat} {st st1 : State} (h : scanLoop flag w i lines st = some st1)
    (l1 : List Str) (line : Str) (l2 : List Str) (hl : lines = l1 ++ line :: l2) :
    ∃ mid, scanLoop flag w i l1 st = some mid ∧
      (¬ Skipped flag (w.fs (i + l1.length)) mid.cpanelSuspendedAccountsCache line →
        lineCall w (i + l1.length) line ∈ st1.calls) := by
  subst hl
  rw [scanLoop_append] at h
  cases hm : scanLoop flag w i l1 st with
  | none => rw [hm] at h; cases h
  | some mid =>
    rw [hm] at h
    simp only [Option.some_bind, scanLoop] at h
    refine ⟨mid, rfl, ?_⟩
    intro hs
    obtain ⟨st2, h1, h2, _⟩ := loopBody_step hwf hs
    rw [h1] at h
    simp only at h
    exact scanLoop_calls_mono _ _ _ _ h _ (by rw [h2]; simp)

theorem main_scan {args : Args} {w : World} {f : DomainsFile} {st : State}
    (hkey : args.apiKeyFlag ≠ ascii "") (hinit : args.newSafeBrowserErr = none)
    (hopen : args.openDomains = .ok f)
    (hscan : scanLoop args.ignoreSuspended w 0 f.lines initState = some st) :
    ∃ fin, main args w = some fin ∧ fin.calls = st.calls ∧
      fin.code = st.code ||| (if f.scanErr.isSome then 4 else 0) := by
  unfold main
  rw [if_neg hkey, hinit]
  simp only [hopen, hscan]
  cases f.scanErr with
  | none => exact ⟨_, rfl, rfl, by simp⟩
  | some err => exact ⟨_, rfl, rfl, by simp [codes_eq.2.2.2]⟩

theorem main_exit_formula {args : Args} {w : World} {f : DomainsFile}
    (hkey : args.apiKeyFlag ≠ ascii "") (hinit : args.newSafeBrowserErr = none)
    (hopen : args.openDomains = .ok f) (hwf : LookupWellFormed w) :
    ∃ fin st, scanLoop args.ignoreSuspended w 0 f.lines initState = some st ∧
      main args w = some fin ∧ fin.calls = st.calls ∧
      fin.code = scanBits fin.calls ||| (if f.scanErr.isSome then 4 else 0) := by
  obtain ⟨st, h1, h2⟩ := @scanLoop_code args.ignoreSuspended w hwf f.lines 0 initState
  obtain ⟨fin, h3, h4, h5⟩ := main_scan hkey hinit hopen h1
  refine ⟨fin, st, h1, h3, h4, ?_⟩
  rw [h5, h4, h2 (by decide)]

theorem scanBits_eq_zero_iff (calls : List Call) :
    scanBits calls = 0 ↔ ∀ c ∈ calls, c.failed = false ∧ c.hasThreat = false := by
  unfold scanBits
  constructor
  · intro h c hc
    cases ha : calls.any Call.hasThreat with
    | true =>
      rw [ha] at h
      cases hb : calls.any Call.failed <;> rw [hb] at h <;> exact absurd h (by decide)
    | false =>
      cases hb : calls.any Call.failed with
      | true => rw [ha, hb] at h; exact absurd h (by decide)
      | false =>
        rw [List.any_eq_false] at ha hb
        exact ⟨by simpa using hb c hc, by simpa using ha c hc⟩
  · intro h
    have ha : calls.any Call.hasThreat = false := by
      rw [List.any_eq_false]; intro c hc; simp [(h c hc).2]
    have hb : calls.any Call.failed = false := by
      rw [List.any_eq_false]; intro c hc; simp [(h c hc).1]
    rw [ha, hb]; decide

theorem zeroThreats_iff {w : World} (hwf : LookupWellFormed w) (i : Nat) (line : Str) :
    (w.LookupURLs i [(parseLine line).1]).zeroThreats ↔
      (lineCall w i line).failed = false ∧ (lineCall w i line).hasThreat = false := by
  have hw := hwf i [(parseLine line).1]
  unfold LookupResult.zeroThreats lineCall Call.failed Call.hasThreat
  cases he : (w.LookupURLs i [(parseLine line).1]).err with
  | some err => simp
  | none =>
    have hl := hw he
    cases ht : (w.LookupURLs i [(parseLine line).1]).threats with
    | nil => rw [ht] at hl; cases hl
    | cons t0 others => cases t0 <;> simp

theorem scanLoop_calls_origin {flag : Bool} {w : World} : ∀ (lines : List Str) (i : Nat)
    (st st1 : State), scanLoop flag w i lines st = some st1 → ∀ c ∈ st1.calls,
      c ∈ st.calls ∨ ∃ l1 line l2 mid, lines = l1 ++ line :: l2 ∧
        scanLoop flag w i l1 st = some mid ∧
        ¬ Skipped flag (w.fs (i + l1.length)) mid.cpanelSuspendedAccountsCache line ∧
        c = lineCall w (i + l1.length) line := by
  intro lines
  induction lines with
  | nil =>
    intro i st st1 h c hc
    simp [scanLoop] at h
    rw [← h] at hc; exact Or.inl hc
  | cons x rest ih =>
    intro i st st1 h c hc
    simp only [scanLoop] at h
    cases hb : loopBody flag w i st x with
    | none => rw [hb] at h; cases h
    | some st2 =>
      rw [hb] at h
      simp only at h
      rcases ih (i + 1) st2 st1 h c hc with h1 | ⟨l1, line, l2, mid, e1, e2, e3, e4⟩
      · by_cases hs : Skipped flag (w.fs i) st.cpanelSuspendedAccountsCache x
        · obtain ⟨st3, g1, g2, _, _⟩ := loopBody_skip hs
          rw [g1] at hb; cases hb
          rw [g2] at h1; exact Or.inl h1
        · obtain ⟨cache, g1⟩ := loopBody_lookup hs
          rw [g1] at hb
          rw [report_calls hb] at h1
          simp only [List.mem_append, List.mem_singleton] at h1
          rcases h1 with h1 | h1
          · exact Or.inl h1
          · exact Or.inr ⟨[], x, rest, st, rfl, rfl, hs, h1⟩
      · refine Or.inr ⟨x :: l1, line, l2, mid, by rw [e1]; rfl, ?_, ?_, ?_⟩
        · simp only [scanLoop, hb]; exact e2
        · have : i + (x :: l1).length = i + 1 + l1.length := by simp; omega
          rw [this]; exact e3
        · have : i + (x :: l1).length = i + 1 + l1.length := by simp; omega
          rw [this]; exact e4

theorem quietWorld_wf : LookupWellFormed quietWorld := by
  intro i urls _; simp [quietWorld]

theorem threatWorld_wf : LookupWellFormed threatWorld := by
  intro i urls _; simp [threatWorld]

theorem failingWorld_wf : LookupWellFormed failingWorld := by
  intro i urls _
  unfold failingWorld
  by_cases h : i = 0 <;> simp [h]

theorem suspendedWorld_wf : LookupWellFormed suspendedWorld := by
  intro i urls _; simp [suspendedWorld]

theorem loopBody_lookup_iff_witness :
    ∃ st1, loopBody false suspendedWorld 0 initState (ascii "shop.example: bob") = some st1 ∧
      (IsSuspendedOncPanel bobSuspended [] (ascii "bob")).1 = true ∧
      st1.calls = [⟨0, [ascii "shop.example"], ⟨[[]], none⟩⟩] := by
  obtain ⟨st1, h1, _, _, h4⟩ :=
    loopBody_lookup_iff false suspendedWorld suspendedWorld_wf 0 initState
      (ascii "shop.example: bob")
  exact ⟨st1, h1, by decide, h4 rfl (by decide) (by decide)⟩

/-- C6 (amended): once the API key is present and the input file opened, the run ends with exit
status (1 if some lookup returned at least one threat) OR (2 if some lookup returned an error) OR
(4 if the line reader reported an error), with codeSafe = 0, codeUnsafe = 1, codeFailed = 2 and
codeInvalid = 4; every line is reached whatever happened on earlier lines and, unless skipped, is
looked up. Hence one lookup failure, no threat and no read error exits with exactly 2, and zero
input lines with no read error exits with 0. -/
theorem main_exit_status (args : Args) (w : World) (f : DomainsFile)
    (hkey : args.apiKeyFlag ≠ ascii "") (hinit : args.newSafeBrowserErr = none)
    (hopen : args.openDomains = .ok f) (hwf : LookupWellFormed w) :
    ∃ fin, main args w = some fin ∧
      fin.code = (if fin.calls.any Call.hasThreat then 1 else 0)
        ||| (if fin.calls.any Call.failed then 2 else 0)
        ||| (if f.scanErr.isSome then 4 else 0) ∧
      (codeSafe = 0 ∧ codeUnsafe = 1 ∧ codeFailed = 2 ∧ codeInvalid = 4) ∧
      (∀ l1 line l2, f.lines = l1 ++ line :: l2 →
        ∃ mid, scanLoop args.ignoreSuspended w 0 l1 initState = some mid ∧
          (¬ Skipped args.ignoreSuspended (w.fs l1.length) mid.cpanelSuspendedAccountsCache line →
            lineCall w l1.length line ∈ fin.calls)) ∧
      (fin.calls.any Call.failed = true → fin.calls.any Call.hasThreat = false →
        f.scanErr = none → fin.code = 2) ∧
      (f.lines = [] → f.scanErr = none → fin.code = 0) := by
  obtain ⟨fin, st, h1, h2, h3, h4⟩ := main_exit_formula hkey hinit hopen hwf
  have h5 : fin.code = (if fin.calls.any Call.hasThreat then 1 else 0)
        ||| (if fin.calls.any Call.failed then 2 else 0)
        ||| (if f.scanErr.isSome then 4 else 0) := h4
  refine ⟨fin, h2, h5, codes_eq, ?_, ?_, ?_⟩
  · intro l1 line l2 hl
    obtain ⟨mid, g1, g2⟩ := scanLoop_reach hwf h1 l1 line l2 hl
    refine ⟨mid, g1, fun hs => ?_⟩
    have := g2 (by simpa using hs)
    rw [h3]; simpa using this
  · intro ha hb hc
    rw [h5, ha, hb, hc]; decide
  · intro hl hc
    rw [hl] at h1
    simp [scanLoop] at h1
    rw [h5, h3, ← h1, hc]; decide

theorem main_exit_status_witness :
    ∃ fin, main (argsFor [ascii "a.example: bob", ascii "b.example: carol"] none) failingWorld
        = some fin ∧ fin.code = 2 ∧ fin.calls.length = 2 := by
  obtain ⟨fin, h1, _, _, _, h5, _⟩ :=
    main_exit_status (argsFor [ascii "a.example: bob", ascii "b.example: carol"] none)
      failingWorld ⟨[ascii "a.example: bob", ascii "b.example: carol"], none⟩
      (by decide) rfl rfl failingWorld_wf
  have e : main (argsFor [ascii "a.example: bob", ascii "b.example: carol"] none) failingWorld
      = some fin := h1
  have hfin : (main (argsFor [ascii "a.example: bob", ascii "b.example: carol"] none)
      failingWorld).map (fun s => (s.calls.any Call.failed, s.calls.any Call.hasThreat,
        s.calls.length)) = some (true, false, 2) := by decide
  rw [e] at hfin
  obtain ⟨g1, g2⟩ := Prod.mk.inj (Option.some.inj hfin)
  obtain ⟨g2, g3⟩ := Prod.mk.inj g2
  exact ⟨fin, h1, h5 g1 g2 rfl, g3⟩

/-- C6 (counterexample): a run whose reader yields zero lines and then reports an error exits
with 4, not 0. -/
theorem zero_lines_with_read_error_exit_4 :
    (argsFor [] (some (ascii "read /srv: is a directory"))).apiKeyFlag ≠ ascii "" ∧
    (argsFor [] (some (ascii "read /srv: is a directory"))).openDomains
      = .ok ⟨[], some (ascii "read /srv: is a directory")⟩ ∧
    (main (argsFor [] (some (ascii "read /srv: is a directory"))) quietWorld).map State.code
      = some 4 ∧
    (main (argsFor [] (some (ascii "read /srv: is a directory"))) quietWorld).map State.code
      ≠ some 0 := by
  refine ⟨by decide, rfl, by decide, by decide⟩

theorem exit_zero_iff (a b c : Bool) :
    ((if a then 1 else 0) ||| (if b then 2 else 0) ||| (if c then 4 else 0) : Nat) = 0 ↔
      a = false ∧ b = false ∧ c = false := by
  cases a <;> cases b <;> cases c <;> decide

/-- C7 (amended): for a run that reaches the scan loop, the exit code is 0 exactly when every
input line is either skipped by the driver or looked up on its url with a successful, zero-threat
answer, and the line reader reported no error. -/
theorem main_exit_zero_iff (args : Args) (w : World) (f : DomainsFile)
    (hkey : args.apiKeyFlag ≠ ascii "") (hinit : args.newSafeBrowserErr = none)
    (hopen : args.openDomains = .ok f) (hwf : LookupWellFormed w) :
    ∃ fin, main args w = some fin ∧
      (fin.code = 0 ↔
        (∀ l1 line l2, f.lines = l1 ++ line :: l2 →
          ∃ mid, scanLoop args.ignoreSuspended w 0 l1 initState = some mid ∧
            (Skipped args.ignoreSuspended (w.fs l1.length) mid.cpanelSuspendedAccountsCache line ∨
              (lineCall w l1.length line ∈ fin.calls ∧
                (w.LookupURLs l1.length [(parseLine line).1]).zeroThreats))) ∧
        f.scanErr = none) := by
  obtain ⟨fin, st, h1, h2, h3, h4⟩ := main_exit_formula hkey hinit hopen hwf
  refine ⟨fin, h2, ?_⟩
  have hz : fin.code = 0 ↔ scanBits fin.calls = 0 ∧ f.scanErr = none := by
    rw [h4]
    unfold scanBits
    rw [exit_zero_iff]
    constructor
    · rintro ⟨ha, hb, hc⟩
      rw [ha, hb]
      exact ⟨by decide, by simpa using hc⟩
    · rintro ⟨hab, hc⟩
      have := (exit_zero_iff (fin.calls.any Call.hasThreat) (fin.calls.any Call.failed) false).1
        (by simpa using hab)
      exact ⟨this.1, this.2.1, by simp [hc]⟩
  rw [hz, scanBits_eq_zero_iff]
  constructor
  · rintro ⟨hall, herr⟩
    refine ⟨?_, herr⟩
    intro l1 line l2 hl
    obtain ⟨mid, g1, g2⟩ := scanLoop_reach hwf h1 l1 line l2 hl
    refine ⟨mid, g1, ?_⟩
    by_cases hs : Skipped args.ignoreSuspended (w.fs l1.length)
        mid.cpanelSuspendedAccountsCache line
    · exact Or.inl hs
    · have hm : lineCall w l1.length line ∈ fin.calls := by
        have := g2 (by simpa using hs)
        rw [h3]; simpa using this
      exact Or.inr ⟨hm, (zeroThreats_iff hwf _ _).2 (hall _ hm)⟩
  · rintro ⟨hall, herr⟩
    refine ⟨?_, herr⟩
    intro c hc
    rw [h3] at hc
    rcases scanLoop_calls_origin _ _ _ _ h1 c hc with h0 | ⟨l1, line, l2, mid, e1, e2, e3, e4⟩
    · cases h0
    · obtain ⟨mid2, g1, g2⟩ := hall l1 line l2 e1
      rw [e2] at g1
      cases g1
      simp only [Nat.zero_add] at e3 e4
      rcases g2 with g2 | ⟨_, g2⟩
      · exact absurd g2 e3
      · rw [e4]
        exact (zeroThreats_iff hwf _ _).1 g2

theorem main_exit_zero_iff_witness :
    ∃ fin, main (argsFor [ascii "shop.example: *", ascii "http://ok.example: alice"] none)
        quietWorld = some fin ∧ fin.code = 0 := by
  obtain ⟨fin, h1, h2⟩ :=
    main_exit_zero_iff (argsFor [ascii "shop.example: *", ascii "http://ok.example: alice"] none)
      quietWorld ⟨[ascii "shop.example: *", ascii "http://ok.example: alice"], none⟩
      (by decide) rfl rfl quietWorld_wf
  have hc : (main (argsFor [ascii "shop.example: *", ascii "http://ok.example: alice"] none)
      quietWorld).map State.code = some 0 := by decide
  rw [h1] at hc
  exact ⟨fin, h1, Option.some.inj hc⟩

/-- C7 (counterexample): a run over the single line "shop.example: *" exits with 0 although no
lookup was invoked for that line, and a run over the single safe line "http://ok.example: alice"
whose reader then reports an error exits with 4 although every line was looked up and is safe. -/
theorem exit_zero_not_iff_all_looked_up :
    (∃ fin, main (argsFor [ascii "shop.example: *"] none) quietWorld = some fin ∧
      fin.code = 0 ∧ ¬ AllLinesLookedUpSafe quietWorld [ascii "shop.example: *"] fin) ∧
    (∃ fin, main (argsFor [ascii "http://ok.example: alice"] (some (ascii "read error")))
        quietWorld = some fin ∧
      fin.code = 4 ∧ AllLinesLookedUpSafe quietWorld [ascii "http://ok.example: alice"] fin) := by
  constructor
  · refine ⟨_, rfl, by decide, ?_⟩
    intro h
    have := (h [] (ascii "shop.example: *") [] rfl).1
    revert this
    simp [initState, exitWith]
  · refine ⟨_, rfl, by decide, ?_⟩
    intro l1 line l2 hl
    cases l1 with
    | nil =>
      simp at hl
      obtain ⟨rfl, _⟩ := hl
      refine ⟨?_, ?_⟩
      · decide
      · exact ⟨rfl, by decide⟩
    | cons x l1 =>
      simp at hl

theorem loopBody_threat_report_witness :
    ∃ st1, loopBody true threatWorld 0 initState (ascii "http://evil.example: bob") = some st1 ∧
      st1.stdout = ascii ("----------\nThreat found: MALWARE\nAccount: bob\n" ++
        "Domain: hxxp://evil[.]example\n----------\n\n") ∧
      st1.code = 1 := by
  obtain ⟨st1, h1, h2, h3, _⟩ :=
    loopBody_threat_report true threatWorld 0 initState (ascii "http://evil.example: bob")
      ⟨ascii "MALWARE"⟩ [] [] (by unfold Skipped; decide) rfl rfl
  refine ⟨st1, h1, ?_, ?_⟩
  · rw [h2]; decide
  · rw [h3]; decide

theorem loopBody_silent_witness :
    (∃ st1, loopBody true quietWorld 0 initState (ascii "badformat") = some st1 ∧
      st1.stdout = [] ∧ st1.code = 0) ∧
    (∃ st1, loopBody true quietWorld 0 initState (ascii "http://ok.example: alice") = some st1 ∧
      st1.stdout = [] ∧ st1.code = 0) :=
  ⟨loopBody_silent true quietWorld 0 initState (ascii "badformat")
      (Or.inl (by unfold Skipped; decide)),
   loopBody_silent true quietWorld 0 initState (ascii "http://ok.example: alice")
      (Or.inr ⟨rfl, [], rfl⟩)⟩

end Sbcpanel
